import Mathlib

/-!
Verification of the NFL betting bot core (src/main.py).

Modelling conventions:
* Python floats are modelled by exact rationals (ℚ); the Elo expectation
  `10 ** x` forces real numbers (ℝ) for the rating engine, so the rating
  definitions are `noncomputable` and settled symbolically.
* A "missing" price (Python `None`, or `NaN` as detected by `pd.isna`) is
  modelled as `Option.none`; an `np.nan` result propagates as `none`, and a
  float comparison whose operand is `NaN` (always `False` in Python) is
  modelled by matching on the `Option` and not entering the branch in the
  `none` case.
* The Elo dictionary keyed by team name is modelled as its key list
  together with a total function `String → ℝ`; a key never inserted keeps
  the initialisation value 1500, which is exactly the value the dict holds
  for every key before any update, so reads during the fold agree with the
  dict and the returned mapping is the function restricted to the key list.
* `DataFrame.sort_values("game_datetime")` is modelled by sorting the game
  list with the timestamp-comparison relation; rows that compare equal
  carry no ordering guarantee in either the source or the model.
-/

/-- `american_to_prob` (src/main.py lines 34-39): `None`/`NaN` ↦ `NaN`
(modelled as `none`); positive odds ↦ `100/(odds+100)`; otherwise
`-odds/(-odds+100)`. -/
def american_to_prob (odds : Option ℚ) : Option ℚ :=
  match odds with
  | none => none
  | some o => some (if o > 0 then 100 / (o + 100) else -o / (-o + 100))

/-- `prob_to_american` (src/main.py lines 41-47): `NaN` (modelled `none`)
for `p ≤ 0` or `p ≥ 1`; else via decimal odds `dec = 1/p`. -/
def prob_to_american (p : ℚ) : Option ℚ :=
  if p ≤ 0 ∨ p ≥ 1 then none
  else
    let dec := 1 / p
    if dec ≥ 2 then some ((dec - 1) * 100) else some (-100 / (dec - 1))

/-- `kelly_fraction` (src/main.py lines 49-55): `0.0` when odds are
missing or `p` is outside `(0,1)`; else `max 0 ((b*p - q)/b)` with
`b = dec - 1`, `dec = 1 + (odds/100 if odds>0 else 100 / (-odds))`. -/
def kelly_fraction (p : ℚ) (odds : Option ℚ) : ℚ :=
  match odds with
  | none => 0
  | some o =>
    if p ≤ 0 ∨ p ≥ 1 then 0
    else
      let dec := 1 + (if o > 0 then o / 100 else 100 / (-o))
      let b := dec - 1
      let q := 1 - p
      max 0 ((b * p - q) / b)

/-- Python's banker's rounding to an integer, over exact rationals:
round-half-to-even, as used by `round(x, n)` in src/main.py. -/
def roundHalfEven (x : ℚ) : ℤ :=
  if x - ⌊x⌋ < 1 / 2 then ⌊x⌋
  else if x - ⌊x⌋ > 1 / 2 then ⌊x⌋ + 1
  else if ⌊x⌋ % 2 = 0 then ⌊x⌋ else ⌊x⌋ + 1

/-- Python's `round(x, n)` over exact rationals. -/
def pyRound (x : ℚ) (n : ℕ) : ℚ := (roundHalfEven (x * 10 ^ n) : ℚ) / 10 ^ n

/-- One row of the odds table for the requested matchup (src/main.py
`fetch_odds`, lines 93-99): prices may be absent (`None`, modelled
`none`). -/
structure Quote where
  home_team : String
  away_team : String
  book : String
  home_price : Option ℚ
  away_price : Option ℚ

/-- One recommendation tuple as appended in src/main.py lines 137 and 139:
`(book, side, team, price, round(prob,3), round(edge,2),
round(kelly*stake,2))`. -/
structure Recommendation where
  book : String
  side : String
  team : String
  price : Option ℚ
  model_prob : ℚ
  edge_pct : ℚ
  stake_amt : ℚ

/-- The body of the recommendation loop of `main` (src/main.py lines
130-139) for a single quote row `r`: compute implied probabilities,
edges and Kelly stakes for both sides and append a tuple for each side
whose edge clears `min_edge`.  The Python edge `(p - imp) * 100` is `NaN`
when the implied probability is `NaN`, and `NaN >= min_edge` is `False`;
this is modelled by the `none` branch producing no tuple.  The home tuple
is appended before the away tuple. -/
def evalQuote (home away : String) (p_home min_edge stake : ℚ) (q : Quote) :
    List Recommendation :=
  let p_away := 1 - p_home
  let k_home := kelly_fraction p_home q.home_price
  let k_away := kelly_fraction (1 - p_home) q.away_price
  (match american_to_prob q.home_price with
   | none => []
   | some imp_home =>
     if (p_home - imp_home) * 100 ≥ min_edge then
       [⟨q.book, "Home ML", home, q.home_price, pyRound p_home 3,
         pyRound ((p_home - imp_home) * 100) 2, pyRound (k_home * stake) 2⟩]
     else []) ++
  (match american_to_prob q.away_price with
   | none => []
   | some imp_away =>
     if (p_away - imp_away) * 100 ≥ min_edge then
       [⟨q.book, "Away ML", away, q.away_price, pyRound p_away 3,
         pyRound ((p_away - imp_away) * 100) 2, pyRound (k_away * stake) 2⟩]
     else [])

/-- The whole `recs` list built by the loop of src/main.py lines 129-139,
in input row order. -/
def evalMatchup (home away : String) (p_home min_edge stake : ℚ)
    (quotes : List Quote) : List Recommendation :=
  quotes.flatMap (evalQuote home away p_home min_edge stake)

/-- Following the spec's words (§4.3): a side qualifies for a
recommendation exactly when its price is present and the edge
`(model probability - implied probability) * 100` meets or exceeds the
caller-supplied minimum-edge threshold. -/
def specSideQualifies (model_p min_edge : ℚ) (price : Option ℚ) : Bool :=
  match american_to_prob price with
  | none => false
  | some imp => decide ((model_p - imp) * 100 ≥ min_edge)

/-- The canonical home-side recommendation record for a quote (fields as
in src/main.py line 137, with the edge and stake written as functions of
the quote). -/
def specHomeRec (home : String) (p_home stake : ℚ) (q : Quote) :
    Recommendation :=
  ⟨q.book, "Home ML", home, q.home_price, pyRound p_home 3,
   pyRound (((american_to_prob q.home_price).map
     (fun imp => (p_home - imp) * 100)).getD 0) 2,
   pyRound (kelly_fraction p_home q.home_price * stake) 2⟩

/-- The canonical away-side recommendation record for a quote (fields as
in src/main.py line 139). -/
def specAwayRec (away : String) (p_home stake : ℚ) (q : Quote) :
    Recommendation :=
  ⟨q.book, "Away ML", away, q.away_price, pyRound (1 - p_home) 3,
   pyRound (((american_to_prob q.away_price).map
     (fun imp => ((1 - p_home) - imp) * 100)).getD 0) 2,
   pyRound (kelly_fraction (1 - p_home) q.away_price * stake) 2⟩

/-- A completed game row as consumed by `build_elo` (src/main.py lines
71-82): team names, final scores, and the kickoff timestamp used as the
sort key (`game_datetime`). -/
structure Game where
  home_team : String
  away_team : String
  home_score : ℚ
  away_score : ℚ
  game_datetime : ℤ

/-- `HOME_FIELD_ELO` (src/main.py line 58). -/
noncomputable def HOME_FIELD_ELO : ℝ := 55

/-- `BASE_K` (src/main.py line 59). -/
noncomputable def BASE_K : ℝ := 20

/-- The expected home result `exp_h = 1/(1+10**(-((rh+HOME_FIELD_ELO)-ra)/400))`
(src/main.py line 77). -/
noncomputable def exp_home (rh ra : ℝ) : ℝ :=
  1 / (1 + (10 : ℝ) ^ (-((rh + HOME_FIELD_ELO) - ra) / 400))

/-- The actual home result `act_h = 1 if hs>as_ else 0 if hs<as_ else 0.5`
(src/main.py line 78). -/
noncomputable def act_home (hs a_s : ℚ) : ℝ :=
  if hs > a_s then 1 else if hs < a_s then 0 else 0.5

/-- The dynamic K-factor `k = BASE_K*(1+min(3,abs(hs-as_)/7))`
(src/main.py line 79). -/
noncomputable def kFactor (hs a_s : ℚ) : ℝ :=
  BASE_K * (1 + min 3 (|(hs : ℝ) - (a_s : ℝ)| / 7))

/-- One iteration of the `build_elo` loop (src/main.py lines 74-81).
`rh` and `ra` are both read before either write, so the two updates use
the pre-update ratings.  Python executes `elo[h] = ...` and then
`elo[a] = ...`; on the (degenerate) rows with `h == a` the second write
wins, which is why the away key is tested first here. -/
noncomputable def eloStep (elo : String → ℝ) (g : Game) : String → ℝ :=
  let rh := elo g.home_team
  let ra := elo g.away_team
  let e := exp_home rh ra
  let a := act_home g.home_score g.away_score
  let k := kFactor g.home_score g.away_score
  fun t =>
    if t = g.away_team then ra + k * ((1 - a) - (1 - e))
    else if t = g.home_team then rh + k * (a - e)
    else elo t

/-- Timestamp comparison between game rows, the sort key of
`games.sort_values("game_datetime")` (src/main.py line 74). -/
def tsLe (g₁ g₂ : Game) : Prop := g₁.game_datetime ≤ g₂.game_datetime

instance : DecidableRel tsLe :=
  fun g₁ g₂ => inferInstanceAs (Decidable (g₁.game_datetime ≤ g₂.game_datetime))

instance : IsTotal Game tsLe :=
  ⟨fun g₁ g₂ => le_total g₁.game_datetime g₂.game_datetime⟩

instance : IsTrans Game tsLe :=
  ⟨fun _ _ _ h₁ h₂ => le_trans h₁ h₂⟩

/-- `games.sort_values("game_datetime")` (src/main.py line 74): the rows
reordered so the timestamps ascend. -/
def sortGames (games : List Game) : List Game := List.insertionSort tsLe games

/-- `pd.unique` (src/main.py line 72): the distinct values in order of
first appearance. -/
def pdUnique (l : List String) : List String :=
  l.foldl (fun acc x => if x ∈ acc then acc else acc ++ [x]) []

/-- `build_elo` (src/main.py lines 71-82): seed every team appearing in
the rows at 1500, then fold the rows in ascending `game_datetime` order
through `eloStep`.  Returned as the dict's key list paired with the
rating function. -/
noncomputable def build_elo (games : List Game) : List String × (String → ℝ) :=
  (pdUnique (games.map Game.home_team ++ games.map Game.away_team),
   (sortGames games).foldl eloStep (fun _ => 1500))

example : american_to_prob (some 120) = some (5 / 11) := by
  norm_num [american_to_prob]
example : american_to_prob (some (-110)) = some (11 / 21) := by
  norm_num [american_to_prob]
example : american_to_prob none = none := rfl
example : prob_to_american (5 / 11) = some 120 := by
  norm_num [prob_to_american]
example : prob_to_american (11 / 21) = some (-110) := by
  norm_num [prob_to_american]
example : kelly_fraction (3 / 5) (some 120) = 4 / 15 := by
  norm_num [kelly_fraction]

/-! ## Helper lemmas -/

theorem prob_to_american_of_ge2 (p : ℚ) (h0 : 0 < p) (h1 : p < 1) (h2 : 1 / p ≥ 2) :
    prob_to_american p = some ((1 / p - 1) * 100) := by
  unfold prob_to_american
  rw [if_neg (by push_neg; exact ⟨h0, h1⟩), if_pos h2]

theorem prob_to_american_of_lt2 (p : ℚ) (h0 : 0 < p) (h1 : p < 1) (h2 : ¬ 1 / p ≥ 2) :
    prob_to_american p = some (-100 / (1 / p - 1)) := by
  unfold prob_to_american
  rw [if_neg (by push_neg; exact ⟨h0, h1⟩), if_neg h2]

theorem odds_b_pos (o : ℚ) (h : o ≥ 100 ∨ o ≤ -100) :
    0 < (if o > 0 then o / 100 else 100 / (-o)) := by
  rcases h with h | h
  · rw [if_pos (by linarith : o > 0)]
    exact div_pos (by linarith) (by norm_num)
  · rw [if_neg (by linarith : ¬ o > 0)]
    exact div_pos (by norm_num) (by linarith)

theorem kelly_fraction_some (p o : ℚ) :
    kelly_fraction p (some o)
      = if p ≤ 0 ∨ p ≥ 1 then 0
        else max 0 ((((1 + (if o > 0 then o / 100 else 100 / (-o))) - 1) * p - (1 - p))
          / ((1 + (if o > 0 then o / 100 else 100 / (-o))) - 1)) := rfl

theorem kelly_fraction_eq (p o : ℚ) (hp0 : 0 < p) (hp1 : p < 1) :
    kelly_fraction p (some o)
      = max 0 (((if o > 0 then o / 100 else 100 / (-o)) * p - (1 - p))
          / (if o > 0 then o / 100 else 100 / (-o))) := by
  rw [kelly_fraction_some, if_neg (by push_neg; exact ⟨hp0, hp1⟩)]
  rw [add_sub_cancel_left]

/-! ## Claims about the odds conversions and the Kelly rule -/

/-- C1: for every valid American odds value `o` (`o ≥ 100` or `o ≤ -100`),
converting to an implied probability and back recovers `o` exactly over
exact arithmetic, except at the even-money boundary, where the round trip
of `o = -100` yields `+100` instead. -/
theorem odds_roundtrip (o : ℚ) (h : o ≥ 100 ∨ o ≤ -100) :
    (american_to_prob (some o)).bind prob_to_american
      = some (if o = -100 then 100 else o) := by
  show prob_to_american (if o > 0 then 100 / (o + 100) else -o / (-o + 100)) = _
  rcases h with h | h
  · have ho : o > 0 := by linarith
    have h100 : (0:ℚ) < o + 100 := by linarith
    rw [if_pos ho, if_neg (by intro he; rw [he] at h; linarith)]
    rw [prob_to_american_of_ge2 _ (by positivity) (by rw [div_lt_one h100]; linarith)
        (by rw [one_div_div, ge_iff_le, le_div_iff₀ (by norm_num : (0:ℚ) < 100)]; linarith)]
    rw [one_div_div]
    congr 1
    field_simp
  · have ho : ¬ o > 0 := by linarith
    have hno : (0:ℚ) < -o := by linarith
    have hden : (0:ℚ) < -o + 100 := by linarith
    rw [if_neg ho]
    rcases eq_or_lt_of_le h with he | hlt
    · subst he
      norm_num [prob_to_american]
    · rw [if_neg (by intro heq; rw [heq] at hlt; linarith)]
      rw [prob_to_american_of_lt2 _ (by positivity) (by rw [div_lt_one hden]; linarith)
          (by rw [one_div_div, ge_iff_le, not_le, div_lt_iff₀ hno]; linarith)]
      rw [one_div_div]
      congr 1
      have hne : -o ≠ 0 := ne_of_gt hno
      have hs : (-o + 100) / -o - 1 = 100 / -o := by
        rw [div_sub_one hne]; ring_nf
      rw [hs, div_div_eq_mul_div]
      field_simp

/-- Witness for C1 at `o = 150` and at the boundary `o = -100`. -/
theorem odds_roundtrip_witness :
    (american_to_prob (some 150)).bind prob_to_american
        = some (if (150 : ℚ) = -100 then 100 else 150) ∧
    (american_to_prob (some (-100))).bind prob_to_american
        = some (if (-100 : ℚ) = -100 then 100 else -100) :=
  ⟨odds_roundtrip 150 (Or.inl (by norm_num)),
   odds_roundtrip (-100) (Or.inr (by norm_num))⟩

/-- C2: for every probability `p` in `(0,1)` and every valid American
odds value `o`, `kelly_fraction p o` lies in `[0,1]`, and holding `o`
fixed it is monotonically non-decreasing in `p`. -/
theorem kelly_range_mono (o p : ℚ) (hv : o ≥ 100 ∨ o ≤ -100)
    (hp0 : 0 < p) (hp1 : p < 1) :
    (0 ≤ kelly_fraction p (some o) ∧ kelly_fraction p (some o) ≤ 1) ∧
    ∀ p₂ : ℚ, p ≤ p₂ → p₂ < 1 →
      kelly_fraction p (some o) ≤ kelly_fraction p₂ (some o) := by
  have hb := odds_b_pos o hv
  constructor
  · constructor
    · rw [kelly_fraction_eq p o hp0 hp1]; exact le_max_left 0 _
    · rw [kelly_fraction_eq p o hp0 hp1]
      apply max_le (by norm_num)
      rw [div_le_one hb]
      nlinarith [mul_lt_mul_of_pos_left hp1 hb]
  · intro p₂ hle hlt
    rw [kelly_fraction_eq p o hp0 hp1,
        kelly_fraction_eq p₂ o (lt_of_lt_of_le hp0 hle) hlt]
    apply max_le_max (le_refl 0)
    apply div_le_div_of_nonneg_right ?_ hb.le
    nlinarith [mul_le_mul_of_nonneg_left hle hb.le]

/-- Witness for C2 at `o = 120`, `p = 3/5`, `p₂ = 7/10`. -/
theorem kelly_range_mono_witness :
    (0 ≤ kelly_fraction (3 / 5) (some 120)
      ∧ kelly_fraction (3 / 5) (some 120) ≤ 1) ∧
    kelly_fraction (3 / 5) (some 120) ≤ kelly_fraction (7 / 10) (some 120) :=
  ⟨(kelly_range_mono 120 (3 / 5) (Or.inl (by norm_num)) (by norm_num) (by norm_num)).1,
   (kelly_range_mono 120 (3 / 5) (Or.inl (by norm_num)) (by norm_num) (by norm_num)).2
     (7 / 10) (by norm_num) (by norm_num)⟩

/-- C5: `kelly_fraction` returns `0` (never a negative value) whenever
odds are missing, the probability is outside `(0,1)`, or the edge
`b*p - q` is non-positive; and it is never negative at all for valid
odds. -/
theorem kelly_no_bet :
    (∀ p : ℚ, kelly_fraction p none = 0) ∧
    (∀ (p : ℚ) (odds : Option ℚ), p ≤ 0 ∨ p ≥ 1 → kelly_fraction p odds = 0) ∧
    (∀ p o : ℚ, o ≥ 100 ∨ o ≤ -100 →
      (if o > 0 then o / 100 else 100 / (-o)) * p - (1 - p) ≤ 0 →
      kelly_fraction p (some o) = 0) ∧
    (∀ p o : ℚ, o ≥ 100 ∨ o ≤ -100 → 0 ≤ kelly_fraction p (some o)) := by
  refine ⟨fun p => rfl, fun p odds h => ?_, fun p o hv he => ?_, fun p o hv => ?_⟩
  · cases odds with
    | none => rfl
    | some o => rw [kelly_fraction_some, if_pos h]
  · by_cases hp : p ≤ 0 ∨ p ≥ 1
    · rw [kelly_fraction_some, if_pos hp]
    · push_neg at hp
      rw [kelly_fraction_eq p o hp.1 hp.2]
      have hb := odds_b_pos o hv
      rw [max_eq_left]
      exact div_nonpos_of_nonpos_of_nonneg he hb.le
  · by_cases hp : p ≤ 0 ∨ p ≥ 1
    · rw [kelly_fraction_some, if_pos hp]
    · push_neg at hp
      rw [kelly_fraction_eq p o hp.1 hp.2]
      exact le_max_left 0 _

/-- Witness for C5: missing odds; `p = 2` out of domain; a negative edge
(`o = 100`, `p = 1/3`); non-negativity at `o = -110`, `p = 1/2`. -/
theorem kelly_no_bet_witness :
    kelly_fraction (1 / 2) none = 0 ∧
    kelly_fraction 2 (some 120) = 0 ∧
    kelly_fraction (1 / 3) (some 100) = 0 ∧
    0 ≤ kelly_fraction (1 / 2) (some (-110)) :=
  ⟨kelly_no_bet.1 (1 / 2),
   kelly_no_bet.2.1 2 (some 120) (Or.inr (by norm_num)),
   kelly_no_bet.2.2.1 (1 / 3) 100 (Or.inl (by norm_num)) (by norm_num),
   kelly_no_bet.2.2.2 (1 / 2) (-110) (Or.inr (by norm_num))⟩

/-- C6 counterexample: the out-of-domain odds value `50` (strictly
between `-100` and `+100`) is not rejected: `american_to_prob` maps it to
the probability `2/3`. -/
theorem american_to_prob_inrange_cex :
    american_to_prob (some 50) = some (2 / 3) := by
  norm_num [american_to_prob]

/-- C6 (amended): `american_to_prob` does not itself reject American odds
strictly between `-100` and `+100` — any present numeric odds value is
mapped to some probability value by the sign-selected formula, so callers
must validate the domain — while a missing odds input propagates as
absence (`none`), never silently as a zero probability. -/
theorem american_to_prob_missing_and_domain :
    american_to_prob none = none ∧
    ∀ o : ℚ, -100 < o → o < 100 → ∃ p : ℚ, american_to_prob (some o) = some p :=
  ⟨rfl, fun _ _ _ => ⟨_, rfl⟩⟩

/-- Witness for (amended) C6 at the in-range odds value `50`. -/
theorem american_to_prob_missing_and_domain_witness :
    american_to_prob none = none ∧
    ∃ p : ℚ, american_to_prob (some 50) = some p :=
  ⟨american_to_prob_missing_and_domain.1,
   american_to_prob_missing_and_domain.2 50 (by norm_num) (by norm_num)⟩

/-- C7: every probability `p` with `p ≤ 0` or `p ≥ 1` passed to
`prob_to_american` is rejected with the domain sentinel (`NaN`, modelled
`none`); no clamped numeric odds value is returned. -/
theorem prob_to_american_reject (p : ℚ) (h : p ≤ 0 ∨ p ≥ 1) :
    prob_to_american p = none := by
  unfold prob_to_american
  rw [if_pos h]

/-- Witness for C7 at `p = 0` and `p = 3/2`. -/
theorem prob_to_american_reject_witness :
    prob_to_american 0 = none ∧ prob_to_american (3 / 2) = none :=
  ⟨prob_to_american_reject 0 (Or.inl le_rfl),
   prob_to_american_reject (3 / 2) (Or.inr (by norm_num))⟩

theorem evalQuote_eq_spec (home away : String) (p_home min_edge stake : ℚ) (q : Quote) :
    evalQuote home away p_home min_edge stake q
      = (if specSideQualifies p_home min_edge q.home_price
         then [specHomeRec home p_home stake q] else []) ++
        (if specSideQualifies (1 - p_home) min_edge q.away_price
         then [specAwayRec away p_home stake q] else []) := by
  unfold evalQuote specSideQualifies specHomeRec specAwayRec
  cases hh : american_to_prob q.home_price with
  | none =>
    cases ha : american_to_prob q.away_price with
    | none => simp
    | some ia => simp [ha]
  | some ih =>
    cases ha : american_to_prob q.away_price with
    | none => simp [hh]
    | some ia => simp [hh, ha]

/-- C4: a recommendation is produced for a side exactly when that side's
price is present and its edge `(model prob - implied prob) * 100` meets
or exceeds the caller-supplied threshold; the output keeps stable input
order — one entry per quote per qualifying side, the home side before
the away side within a quote — with no edge-based sorting. -/
theorem rec_iff_edge_threshold (home away : String) (p_home min_edge stake : ℚ)
    (quotes : List Quote) :
    evalMatchup home away p_home min_edge stake quotes
      = quotes.flatMap (fun q =>
          (if specSideQualifies p_home min_edge q.home_price
           then [specHomeRec home p_home stake q] else []) ++
          (if specSideQualifies (1 - p_home) min_edge q.away_price
           then [specAwayRec away p_home stake q] else [])) := by
  unfold evalMatchup
  congr 1
  funext q
  exact evalQuote_eq_spec home away p_home min_edge stake q

/-- C3: a quote whose price for one side is missing produces no
recommendation for that side, whatever the model probability, threshold,
bankroll and other-side price are. -/
theorem missing_price_no_rec (home away : String) (p_home min_edge stake : ℚ)
    (q : Quote) :
    (q.home_price = none →
      (evalQuote home away p_home min_edge stake q).filter
        (fun r => r.side == "Home ML") = []) ∧
    (q.away_price = none →
      (evalQuote home away p_home min_edge stake q).filter
        (fun r => r.side == "Away ML") = []) := by
  constructor
  · intro h
    unfold evalQuote
    rw [h]
    cases ha : american_to_prob q.away_price with
    | none => simp [american_to_prob]
    | some ia =>
      simp only [american_to_prob, List.nil_append]
      split_ifs <;> simp
  · intro h
    unfold evalQuote
    rw [h]
    cases hh : american_to_prob q.home_price with
    | none => simp [american_to_prob]
    | some ih =>
      simp only [american_to_prob, List.append_nil]
      split_ifs <;> simp

/-- Witness for C3: a quote with a missing home price and a strongly
favourable away price, and its mirror image. -/
theorem missing_price_no_rec_witness :
    (evalQuote "H" "A" (9 / 10) 1 100
        ⟨"H", "A", "BookX", none, some (-110)⟩).filter
      (fun r => r.side == "Home ML") = [] ∧
    (evalQuote "H" "A" (9 / 10) 1 100
        ⟨"H", "A", "BookX", some (-110), none⟩).filter
      (fun r => r.side == "Away ML") = [] :=
  ⟨(missing_price_no_rec "H" "A" (9 / 10) 1 100
      ⟨"H", "A", "BookX", none, some (-110)⟩).1 rfl,
   (missing_price_no_rec "H" "A" (9 / 10) 1 100
      ⟨"H", "A", "BookX", some (-110), none⟩).2 rfl⟩

/-! ## Helper lemmas for the rating engine -/

theorem build_elo_fst (games : List Game) :
    (build_elo games).1
      = pdUnique (games.map Game.home_team ++ games.map Game.away_team) := rfl

theorem build_elo_snd (games : List Game) :
    (build_elo games).2 = (sortGames games).foldl eloStep (fun _ => 1500) := rfl

theorem eloStep_apply (elo : String → ℝ) (g : Game) (t : String) :
    eloStep elo g t
      = if t = g.away_team
        then elo g.away_team + kFactor g.home_score g.away_score
          * ((1 - act_home g.home_score g.away_score)
             - (1 - exp_home (elo g.home_team) (elo g.away_team)))
        else if t = g.home_team
        then elo g.home_team + kFactor g.home_score g.away_score
          * (act_home g.home_score g.away_score
             - exp_home (elo g.home_team) (elo g.away_team))
        else elo t := rfl

theorem eloStep_home (elo : String → ℝ) (g : Game)
    (h : g.home_team ≠ g.away_team) :
    eloStep elo g g.home_team
      = elo g.home_team + kFactor g.home_score g.away_score
          * (act_home g.home_score g.away_score
             - exp_home (elo g.home_team) (elo g.away_team)) := by
  rw [eloStep_apply, if_neg h, if_pos rfl]

theorem eloStep_away (elo : String → ℝ) (g : Game) :
    eloStep elo g g.away_team
      = elo g.away_team + kFactor g.home_score g.away_score
          * ((1 - act_home g.home_score g.away_score)
             - (1 - exp_home (elo g.home_team) (elo g.away_team))) := by
  rw [eloStep_apply, if_pos rfl]

/-! ## Claims about the rating engine -/

/-- C8 counterexample: at a concrete game with a live home-field
asymmetry (the initial expected home score differs from 1/2), the
home and away rating deltas are still exact negations of each other, so
the asymmetry does not break `ΔR[h] = -ΔR[a]` as the claim asserts. -/
theorem elo_delta_negation_cex :
    (eloStep (fun _ => 1500) ⟨"HOME", "AWAY", 21, 14, 0⟩ "HOME" - 1500
      = -(eloStep (fun _ => 1500) ⟨"HOME", "AWAY", 21, 14, 0⟩ "AWAY" - 1500)) ∧
    exp_home 1500 1500 ≠ 1 / 2 := by
  constructor
  · rw [eloStep_home _ _ (by decide), eloStep_away]
    ring
  · unfold exp_home HOME_FIELD_ELO
    intro heq
    have hlt : ((10:ℝ) ^ (-((1500 + 55) - 1500) / 400 : ℝ)) < 1 :=
      Real.rpow_lt_one_of_one_lt_of_neg (by norm_num) (by norm_num)
    have hpos : (0:ℝ) < (10:ℝ) ^ (-((1500 + 55) - 1500) / 400 : ℝ) :=
      Real.rpow_pos_of_pos (by norm_num) _
    rw [div_eq_div_iff (by linarith) (by norm_num)] at heq
    linarith

/-- C8 (amended): for every single game between distinct teams,
`ΔR[h] = -ΔR[a]` holds exactly — the home-field constant shifts only the
expectation, not the symmetry of the split — and the expected-value
neutrality also holds: the two actual-minus-expected deltas sum to
zero. -/
theorem elo_update_antisymmetric (elo : String → ℝ) (g : Game)
    (h : g.home_team ≠ g.away_team) :
    (eloStep elo g g.home_team - elo g.home_team
      = -(eloStep elo g g.away_team - elo g.away_team)) ∧
    (act_home g.home_score g.away_score
        - exp_home (elo g.home_team) (elo g.away_team))
      + ((1 - act_home g.home_score g.away_score)
        - (1 - exp_home (elo g.home_team) (elo g.away_team))) = 0 := by
  rw [eloStep_home _ _ h, eloStep_away]
  constructor
  · ring
  · ring

/-- Witness for (amended) C8 at a concrete game, both teams at 1500. -/
theorem elo_update_antisymmetric_witness :
    (eloStep (fun _ => 1500) ⟨"H", "A", 27, 20, 5⟩ "H" - 1500
      = -(eloStep (fun _ => 1500) ⟨"H", "A", 27, 20, 5⟩ "A" - 1500)) ∧
    (act_home 27 20 - exp_home 1500 1500)
      + ((1 - act_home 27 20) - (1 - exp_home 1500 1500)) = 0 :=
  elo_update_antisymmetric (fun _ => 1500) ⟨"H", "A", 27, 20, 5⟩ (by decide)

theorem pdUnique_loop_mem (l : List String) :
    ∀ (acc : List String) (a : String),
      (a ∈ l.foldl (fun acc x => if x ∈ acc then acc else acc ++ [x]) acc
        ↔ a ∈ acc ∨ a ∈ l) := by
  induction l with
  | nil => intro acc a; simp
  | cons x xs ih =>
    intro acc a
    rw [List.foldl_cons, ih]
    by_cases hx : x ∈ acc
    · rw [if_pos hx]
      have hax : a = x → a ∈ acc := fun h => h ▸ hx
      simp only [List.mem_cons]
      tauto
    · rw [if_neg hx]
      simp only [List.mem_append, List.mem_singleton, List.mem_cons]
      tauto

theorem pdUnique_mem (l : List String) (a : String) :
    a ∈ pdUnique l ↔ a ∈ l := by
  unfold pdUnique
  rw [pdUnique_loop_mem]
  simp

theorem pdUnique_toFinset (l : List String) :
    (pdUnique l).toFinset = l.toFinset := by
  ext a
  simp [List.mem_toFinset, pdUnique_mem]

theorem sorted_key_nodup_perm_eq :
    ∀ {l₁ l₂ : List Game}, l₁.Perm l₂ → l₁.Sorted tsLe → l₂.Sorted tsLe →
      (l₁.map Game.game_datetime).Nodup → l₁ = l₂ := by
  intro l₁
  induction l₁ with
  | nil =>
    intro l₂ hp _ _ _
    cases l₂ with
    | nil => rfl
    | cons b t₂ => exact absurd hp.length_eq (by simp)
  | cons a t₁ ih =>
    intro l₂ hp hs₁ hs₂ hn
    cases l₂ with
    | nil => exact absurd hp.length_eq (by simp)
    | cons b t₂ =>
      have hab : a = b := by
        by_contra hne
        have hbt : b ∈ t₁ := by
          rcases List.mem_cons.mp (hp.mem_iff.mpr (List.mem_cons_self b t₂)) with h | h
          · exact absurd h.symm hne
          · exact h
        have hat : a ∈ t₂ := by
          rcases List.mem_cons.mp (hp.mem_iff.mp (List.mem_cons_self a t₁)) with h | h
          · exact absurd h hne
          · exact h
        have h₁ : tsLe a b := ((List.sorted_cons.mp hs₁).1 b hbt)
        have h₂ : tsLe b a := ((List.sorted_cons.mp hs₂).1 a hat)
        have hts : a.game_datetime = b.game_datetime := le_antisymm h₁ h₂
        have hmem : a.game_datetime ∈ t₁.map Game.game_datetime := by
          rw [hts]
          exact List.mem_map_of_mem Game.game_datetime hbt
        rw [List.map_cons, List.nodup_cons] at hn
        exact hn.1 hmem
      subst hab
      have hperm : t₁.Perm t₂ := hp.cons_inv
      rw [ih hperm (List.sorted_cons.mp hs₁).2 (List.sorted_cons.mp hs₂).2
        (by rw [List.map_cons, List.nodup_cons] at hn; exact hn.2)]

/-- C9: the final rating mapping depends only on the timestamps, not the
arrival order — for lists of games with pairwise distinct timestamps,
every permutation yields the same team set and the same rating
function. -/
theorem build_elo_perm_invariant (l₁ l₂ : List Game) (hp : l₁.Perm l₂)
    (hn : (l₁.map Game.game_datetime).Nodup) :
    (build_elo l₁).1.toFinset = (build_elo l₂).1.toFinset ∧
    (build_elo l₁).2 = (build_elo l₂).2 := by
  have hsort : sortGames l₁ = sortGames l₂ := by
    apply sorted_key_nodup_perm_eq
    · exact (List.perm_insertionSort tsLe l₁).trans
        (hp.trans (List.perm_insertionSort tsLe l₂).symm)
    · exact List.sorted_insertionSort tsLe l₁
    · exact List.sorted_insertionSort tsLe l₂
    · exact (((List.perm_insertionSort tsLe l₁).map
        Game.game_datetime).nodup_iff).mpr hn
  constructor
  · rw [build_elo_fst, build_elo_fst, pdUnique_toFinset, pdUnique_toFinset]
    ext t
    simp only [List.mem_toFinset]
    exact ((hp.map Game.home_team).append (hp.map Game.away_team)).mem_iff
  · rw [build_elo_snd, build_elo_snd, hsort]

/-- Witness for C9: two concrete games in the two arrival orders. -/
theorem build_elo_perm_invariant_witness :
    ((build_elo [⟨"A", "B", 10, 7, 1⟩, ⟨"C", "D", 20, 3, 2⟩]).1.toFinset
      = (build_elo [⟨"C", "D", 20, 3, 2⟩, ⟨"A", "B", 10, 7, 1⟩]).1.toFinset) ∧
    ((build_elo [⟨"A", "B", 10, 7, 1⟩, ⟨"C", "D", 20, 3, 2⟩]).2
      = (build_elo [⟨"C", "D", 20, 3, 2⟩, ⟨"A", "B", 10, 7, 1⟩]).2) :=
  build_elo_perm_invariant _ _
    (List.Perm.swap (⟨"C", "D", 20, 3, 2⟩ : Game) (⟨"A", "B", 10, 7, 1⟩ : Game) [])
    (by decide)

theorem eloStep_eq_update (elo : String → ℝ) (g : Game) :
    eloStep elo g
      = Function.update
          (Function.update elo g.home_team
            (elo g.home_team + kFactor g.home_score g.away_score
              * (act_home g.home_score g.away_score
                 - exp_home (elo g.home_team) (elo g.away_team))))
          g.away_team
          (elo g.away_team + kFactor g.home_score g.away_score
            * ((1 - act_home g.home_score g.away_score)
               - (1 - exp_home (elo g.home_team) (elo g.away_team)))) := by
  funext t
  rw [eloStep_apply, Function.update_apply, Function.update_apply]

theorem eloStep_sum (S : Finset String) (elo : String → ℝ) (g : Game)
    (hh : g.home_team ∈ S) (ha : g.away_team ∈ S)
    (hne : g.home_team ≠ g.away_team) :
    ∑ t ∈ S, eloStep elo g t = ∑ t ∈ S, elo t := by
  rw [eloStep_eq_update]
  rw [Finset.sum_update_of_mem ha]
  have hh₂ : g.home_team ∈ S \ {g.away_team} :=
    Finset.mem_sdiff.mpr ⟨hh, by simp [hne]⟩
  rw [Finset.sum_update_of_mem hh₂]
  have hsplit₁ : ∑ t ∈ S, elo t
      = elo g.away_team + ∑ t ∈ S \ {g.away_team}, elo t := by
    rw [Finset.sdiff_singleton_eq_erase, Finset.add_sum_erase _ _ ha]
  have hsplit₂ : ∑ t ∈ S \ {g.away_team}, elo t
      = elo g.home_team + ∑ t ∈ (S \ {g.away_team}) \ {g.home_team}, elo t := by
    rw [Finset.sdiff_singleton_eq_erase (g.home_team), Finset.add_sum_erase _ _ hh₂]
  rw [hsplit₁, hsplit₂]
  ring

theorem foldl_eloStep_sum (S : Finset String) (gs : List Game) :
    ∀ f : String → ℝ,
      (∀ g ∈ gs, g.home_team ∈ S ∧ g.away_team ∈ S ∧ g.home_team ≠ g.away_team) →
      ∑ t ∈ S, (gs.foldl eloStep f) t = ∑ t ∈ S, f t := by
  induction gs with
  | nil => intro f _; rfl
  | cons g gs ih =>
    intro f hmem
    rw [List.foldl_cons,
        ih (eloStep f g) (fun g₂ hg₂ => hmem g₂ (List.mem_cons_of_mem g hg₂))]
    exact eloStep_sum S f g (hmem g (List.mem_cons_self g gs)).1
      (hmem g (List.mem_cons_self g gs)).2.1
      (hmem g (List.mem_cons_self g gs)).2.2

/-- C10 counterexample: on the degenerate row whose home and away team
coincide, the first dict write is overwritten by the second, so the
total rating mass is not preserved and the claimed identity fails. -/
theorem build_elo_mass_cex :
    ¬ (∑ t ∈ (build_elo [⟨"A", "A", 21, 14, 0⟩]).1.toFinset,
          (build_elo [⟨"A", "A", 21, 14, 0⟩]).2 t
        = 1500 * ((([⟨"A", "A", 21, 14, 0⟩] : List Game).map Game.home_team
            ++ ([⟨"A", "A", 21, 14, 0⟩] : List Game).map Game.away_team).toFinset.card : ℝ)) := by
  intro hsum
  have hfst : (build_elo [⟨"A", "A", 21, 14, 0⟩]).1 = ["A"] := by decide
  have hsnd : (build_elo [⟨"A", "A", 21, 14, 0⟩]).2 "A"
      = 1500 + kFactor 21 14 * ((1 - act_home 21 14) - (1 - exp_home 1500 1500)) := by
    rw [build_elo_snd]
    show eloStep (fun _ => 1500) ⟨"A", "A", 21, 14, 0⟩ "A" = _
    rw [eloStep_apply, if_pos rfl]
  have hcard : ((([⟨"A", "A", 21, 14, 0⟩] : List Game).map Game.home_team
      ++ ([⟨"A", "A", 21, 14, 0⟩] : List Game).map Game.away_team).toFinset.card : ℝ) = 1 := by
    norm_num [List.toFinset_cons]
  rw [hfst, hcard] at hsum
  simp only [List.toFinset_cons, List.toFinset_nil, insert_emptyc_eq,
    Finset.sum_singleton] at hsum
  rw [hsnd] at hsum
  have hact : act_home 21 14 = 1 := by norm_num [act_home]
  have hk : kFactor 21 14 = 40 := by norm_num [kFactor, BASE_K]
  rw [hact, hk] at hsum
  have hexp : exp_home 1500 1500 < 1 := by
    unfold exp_home
    have hpos : (0:ℝ) < (10:ℝ) ^ (-((1500 + HOME_FIELD_ELO) - 1500) / 400 : ℝ) :=
      Real.rpow_pos_of_pos (by norm_num) _
    rw [div_lt_one (by linarith)]
    linarith
  nlinarith [hexp]

/-- C10 (amended): for every list of game outcomes in which each game's
home and away teams are distinct, the sum of the ratings returned by
`build_elo` over its team keys equals 1500 times the number of distinct
teams appearing in the list — each per-game update adds
`k*(act_h - exp_h)` to the home team and exactly its negation to the
away team. -/
theorem build_elo_mass (games : List Game)
    (hne : ∀ g ∈ games, g.home_team ≠ g.away_team) :
    ∑ t ∈ (build_elo games).1.toFinset, (build_elo games).2 t
      = 1500 * (((games.map Game.home_team
          ++ games.map Game.away_team).toFinset.card : ℕ) : ℝ) := by
  rw [build_elo_fst, build_elo_snd, pdUnique_toFinset]
  set S := (games.map Game.home_team ++ games.map Game.away_team).toFinset with hS
  have hmem : ∀ g ∈ sortGames games,
      g.home_team ∈ S ∧ g.away_team ∈ S ∧ g.home_team ≠ g.away_team := by
    intro g hg
    have hg₂ : g ∈ games := (List.perm_insertionSort tsLe games).mem_iff.mp hg
    refine ⟨?_, ?_, hne g hg₂⟩
    · rw [hS]
      rw [List.mem_toFinset, List.mem_append]
      exact Or.inl (List.mem_map_of_mem Game.home_team hg₂)
    · rw [hS]
      rw [List.mem_toFinset, List.mem_append]
      exact Or.inr (List.mem_map_of_mem Game.away_team hg₂)
  rw [foldl_eloStep_sum S (sortGames games) (fun _ => 1500) hmem]
  rw [Finset.sum_const, nsmul_eq_mul]
  ring

/-- Witness for (amended) C10 on a one-game list between distinct
teams. -/
theorem build_elo_mass_witness :
    ∑ t ∈ (build_elo [⟨"A", "B", 21, 14, 0⟩]).1.toFinset,
        (build_elo [⟨"A", "B", 21, 14, 0⟩]).2 t
      = 1500 * (((([⟨"A", "B", 21, 14, 0⟩] : List Game).map Game.home_team
          ++ ([⟨"A", "B", 21, 14, 0⟩] : List Game).map Game.away_team).toFinset.card : ℕ) : ℝ) :=
  build_elo_mass [⟨"A", "B", 21, 14, 0⟩] (by decide)

example :
    ((evalQuote "H" "A" (3 / 5) 1 100
        ⟨"H", "A", "BookX", some 120, none⟩).map Recommendation.side)
      = ["Home ML"] := by
  norm_num [evalQuote, american_to_prob]

example :
    (evalQuote "H" "A" (1 / 2) 1 100
        ⟨"H", "A", "BookX", some (-110), none⟩) = [] := by
  norm_num [evalQuote, american_to_prob]
